import Mathlib

/-!
Verification of the transactional object-store engine driven by
`src/demos.js` (an IndexedDB tutorial script using the `idb` wrapper).
The demos are callers only; the engine they exercise (databases, stores,
indexes, key ranges, transactions, cursors, the version-upgrade protocol)
is modelled from the specification, since its code is not part of the
repository.  `generate100cats` at the bottom of `demos.js` is repository
code and is embedded directly from the source.
-/

namespace IDB

/-- Modelled from the spec: the error kinds of §7 (the engine's code is not
in the repository; only its callers in `src/demos.js` are). -/
inductive DBError where
  | ConstraintError
  | DataError
  | VersionError
  | InvalidStateError
  deriving DecidableEq, Repr

/-- Modelled from the spec: an ObjectStore is an ordered mapping from
primary key to record value (§3).  `records` is kept sorted in strictly
ascending key order, which also makes primary keys unique. -/
structure ObjectStore (K V : Type) where
  records : List (K × V)
  deriving DecidableEq, Repr

variable {K V : Type} [LinearOrder K]

/-- Well-formedness of a store: records strictly ascending by primary key
(hence keys are unique, §3 invariant). -/
def WF (s : ObjectStore K V) : Prop :=
  s.records.Pairwise (fun a b => a.1 < b.1)

instance (s : ObjectStore K V) : Decidable (WF s) := by
  unfold WF; infer_instance

/-- Modelled from the spec: `get(key) → value | absent` (§4.2). -/
def getRec (s : ObjectStore K V) (k : K) : Option V :=
  (s.records.find? (fun p => decide (p.1 = k))).map Prod.snd

/-- Insert `(k, v)` into a key-sorted record list, overwriting an existing
record with key `k`. -/
def insertRec (k : K) (v : V) : List (K × V) → List (K × V)
  | [] => [(k, v)]
  | p :: rest =>
    if k < p.1 then (k, v) :: p :: rest
    else if k = p.1 then (k, v) :: rest
    else p :: insertRec k v rest

/-- Modelled from the spec: `add(value, key)` fails with `ConstraintError`
if the key already exists, else inserts (§4.2).  The key argument is the
already-derived primary key (explicit key, `key_path` extraction or
auto-increment all yield such a key). -/
def add (s : ObjectStore K V) (k : K) (v : V) : Except DBError (ObjectStore K V) :=
  if (getRec s k).isSome then .error .ConstraintError
  else .ok ⟨insertRec k v s.records⟩

/-- Modelled from the spec: `put(value, key)` overwrites silently if the key
exists, inserts otherwise (§4.2). -/
def put (s : ObjectStore K V) (k : K) (v : V) : ObjectStore K V :=
  ⟨insertRec k v s.records⟩

/-- Modelled from the spec: `delete(key)` removes the record with that key,
if present (§4.2). -/
def del (s : ObjectStore K V) (k : K) : ObjectStore K V :=
  ⟨s.records.filter (fun p => !decide (p.1 = k))⟩

/-- Modelled from the spec: `get_all()` returns the values in ascending key
order (§4.2). -/
def getAll (s : ObjectStore K V) : List V :=
  s.records.map Prod.snd

/-- Modelled from the spec: `get_all_keys()` in ascending key order. -/
def getAllKeys (s : ObjectStore K V) : List K :=
  s.records.map Prod.fst

/-- Modelled from the spec: `count()` (§4.2). -/
def count (s : ObjectStore K V) : Nat :=
  s.records.length

/-- Modelled from the spec: a KeyRange describes a bounded/unbounded,
inclusive/exclusive interval over ordered keys (§3). -/
structure KeyRange (K : Type) where
  lower : Option K
  lowerOpen : Bool
  upper : Option K
  upperOpen : Bool
  deriving Repr

/-- Modelled from the spec: `KeyRange.bound(lower, upper)` with both bounds
inclusive (§6). -/
def KeyRange.bound (a b : K) : KeyRange K :=
  ⟨some a, false, some b, false⟩

/-- Whether a key lies within a KeyRange. -/
def KeyRange.contains (r : KeyRange K) (k : K) : Bool :=
  (match r.lower with
   | none => true
   | some a => if r.lowerOpen then decide (a < k) else decide (a ≤ k)) &&
  (match r.upper with
   | none => true
   | some b => if r.upperOpen then decide (k < b) else decide (k ≤ b))

/-- Modelled from the spec: the states of a Transaction (§3, §4.5). -/
inductive TxnState where
  | Active
  | Committing
  | Committed
  | Aborted
  deriving DecidableEq, Repr

/-- Modelled from the spec: a queued mutating operation of a transaction on
one store (§3 `queued_operations`). -/
inductive Op (K V : Type) where
  | add (k : K) (v : V)
  | put (k : K) (v : V)
  | del (k : K)
  deriving Repr

/-- Apply one queued operation to a store; `add` may fail. -/
def applyOp (s : ObjectStore K V) : Op K V → Except DBError (ObjectStore K V)
  | .add k v => add s k v
  | .put k v => .ok (put s k v)
  | .del k => .ok (del s k)

/-- Apply a sequence of queued operations in submission order, stopping at
the first failure. -/
def applyOps (s : ObjectStore K V) : List (Op K V) → Except DBError (ObjectStore K V)
  | [] => .ok s
  | op :: ops =>
    match applyOp s op with
    | .ok s' => applyOps s' ops
    | .error e => .error e

/-- Modelled from the spec: transaction atomicity (§4.5).  A transaction
runs its queued operations in order; if all succeed it commits with their
combined effect, and if any single one fails the whole transaction aborts
and every effect is rolled back, leaving the state as at transaction
start. -/
def runTxn (s : ObjectStore K V) (ops : List (Op K V)) : ObjectStore K V × TxnState :=
  match applyOps s ops with
  | .ok s' => (s', .Committed)
  | .error _ => (s, .Aborted)

/-- Lexicographic order on index entries `(derived_key, primary_key)`:
ascending by derived key, ties broken by primary key (§4.3). -/
def entryLe {K2 : Type} [LinearOrder K2] (a b : K2 × K) : Prop :=
  a.1 < b.1 ∨ (a.1 = b.1 ∧ a.2 ≤ b.2)

instance {K2 : Type} [LinearOrder K2] (a b : K2 × K) : Decidable (entryLe a b) := by
  unfold entryLe; infer_instance

/-- Insert an index entry into an entry list sorted by `entryLe`. -/
def insertEntry {K2 : Type} [LinearOrder K2] (e : K2 × K) :
    List (K2 × K) → List (K2 × K)
  | [] => [e]
  | q :: rest => if entryLe e q then e :: q :: rest else q :: insertEntry e rest

/-- Modelled from the spec: the entries of an Index with key extractor `f`
on its parent store — `(derived_key, primary_key)` pairs, ordered by derived
key then primary key (§3, §4.3).  Per the §3 invariant the Index is a pure,
automatically-maintained function of the parent store's current records and
accepts no direct writes, so it is embedded as exactly that function. -/
def indexEntries {K2 : Type} [LinearOrder K2]
    (s : ObjectStore K V) (f : V → K2) : List (K2 × K) :=
  s.records.foldr (fun p acc => insertEntry (f p.2, p.1) acc) []

/-- The primary keys the index associates with derived key `d`
(the key set behind `index.get_all(d)`, §4.3). -/
def indexPKs {K2 : Type} [LinearOrder K2]
    (s : ObjectStore K V) (f : V → K2) (d : K2) : List K :=
  ((indexEntries s f).filter (fun e => decide (e.1 = d))).map Prod.snd

/-- Modelled from the spec: the index entries selected by a KeyRange over
the derived key, in index order (the entries behind
`get_all_from_index(store, index, range)`, §4.3, §6). -/
def indexEntriesInRange {K2 : Type} [LinearOrder K2]
    (s : ObjectStore K V) (f : V → K2) (r : KeyRange K2) : List (K2 × K) :=
  (indexEntries s f).filter (fun e => r.contains e.1)

/-- Modelled from the spec: `get_all_from_index`, the values of the records
selected by the range, ordered by derived key then primary key (§4.3). -/
def getAllFromIndex {K2 : Type} [LinearOrder K2]
    (s : ObjectStore K V) (f : V → K2) (r : KeyRange K2) : List V :=
  (indexEntriesInRange s f r).filterMap (fun e => getRec s e.2)

/-- Modelled from the spec: a Cursor is positioned within its source's
entry list, scoped to the records visible to its transaction (§3, §4.4). -/
structure Cursor (K V : Type) where
  source : List (K × V)
  pos : Nat
  deriving Repr

/-- The key at the cursor's position. -/
def Cursor.key (c : Cursor K V) : Option K :=
  (c.source.get? c.pos).map Prod.fst

/-- The value at the cursor's position. -/
def Cursor.value (c : Cursor K V) : Option V :=
  (c.source.get? c.pos).map Prod.snd

/-- Modelled from the spec: `open_cursor()` (no range, forward direction)
positioned at the first entry, or exhausted (`none`) if the store is
empty (§4.4). -/
def openCursor (s : ObjectStore K V) : Option (Cursor K V) :=
  if s.records.isEmpty then none else some ⟨s.records, 0⟩

/-- Modelled from the spec: `cursor.continue()` advances to the next entry
in forward order, or exhausts (§4.4). -/
def cursorContinue (c : Cursor K V) : Option (Cursor K V) :=
  if c.pos + 1 < c.source.length then some ⟨c.source, c.pos + 1⟩ else none

/-- The values visited by repeatedly reading and advancing a cursor from
position `pos` until exhaustion. -/
def collectFrom (src : List (K × V)) (pos : Nat) : List V :=
  match h : src.get? pos with
  | none => []
  | some p =>
    have : src.length - (pos + 1) < src.length - pos := by
      have hlt : pos < src.length := List.get?_eq_some.mp h |>.1
      omega
    p.2 :: collectFrom src (pos + 1)
termination_by src.length - pos

/-- Iterate a cursor opened on the store (no range, forward) from open to
exhaustion, collecting the visited values. -/
def cursorIterate (s : ObjectStore K V) : List V :=
  match openCursor s with
  | none => []
  | some c => collectFrom c.source c.pos

/-- Modelled from the spec: the Engine/Registry entry for one database
name — its stored version and its whole schema-plus-data state, abstracted
as a value of type `σ` (§3, §4.1). -/
structure DBRecord (σ : Type) where
  version : Nat
  data : σ
  deriving DecidableEq, Repr

variable {σ : Type}

/-- The stored version of a registry slot: 0 when the database does not
exist yet (§4.1 step (a)). -/
def storedVersion (cur : Option (DBRecord σ)) : Nat :=
  (cur.map DBRecord.version).getD 0

/-- The stored data of a registry slot, `init` for an absent database. -/
def storedData (cur : Option (DBRecord σ)) (init : σ) : σ :=
  (cur.map DBRecord.data).getD init

/-- Modelled from the spec: `open(name, requested_version, upgrade_handler)`
(§4.1).  Fails with `VersionError` if the requested version is below the
stored one; if it is above, runs the upgrade handler inside a VersionChange
transaction — on handler success commits and sets stored version to the
requested version, on handler failure aborts, fails the open, and leaves
the stored version and data unchanged.  Returns the updated registry slot
together with the open call's result. -/
def openDB (cur : Option (DBRecord σ)) (v : Nat) (init : σ)
    (handler : Nat → Nat → σ → Except DBError σ) :
    Option (DBRecord σ) × Except DBError (DBRecord σ) :=
  if v < storedVersion cur then (cur, .error .VersionError)
  else if storedVersion cur < v then
    match handler (storedVersion cur) v (storedData cur init) with
    | .ok d => (some ⟨v, d⟩, .ok ⟨v, d⟩)
    | .error e => (cur, .error e)
  else (cur, .ok ⟨storedVersion cur, storedData cur init⟩)

/-- Run a list of upgrade step functions in order on the database state,
stopping at the first failure (the sequential step application of §4.1's
multi-step upgrade policy). -/
def runSteps : List (σ → Except DBError σ) → σ → Except DBError σ
  | [], d => .ok d
  | f :: fs, d =>
    match f d with
    | .ok d' => runSteps fs d'
    | .error e => .error e

/-- Modelled from the spec: the cumulative-fallthrough upgrade handler
(§4.1 policy): `steps[i]` upgrades from version `i` to `i + 1`, and the
handler invoked with `(old_version, new_version)` runs the steps
`old_version, old_version + 1, ..., new_version - 1` in order, as the
`switch (oldVersion)` fallthrough in demos 10 and 11 does. -/
def fallthroughHandler (steps : List (σ → Except DBError σ)) :
    Nat → Nat → σ → Except DBError σ :=
  fun oldV newV d => runSteps ((steps.take newV).drop oldV) d

/-- The registry slot after opening the database incrementally through
versions `1, 2, ..., n`, starting from an absent database, with the
fallthrough handler at every step. -/
def incrState (steps : List (σ → Except DBError σ)) (init : σ) :
    Nat → Option (DBRecord σ)
  | 0 => none
  | n + 1 => (openDB (incrState steps init n) (n + 1) init (fallthroughHandler steps)).1

/-- A cat record of `generate100cats` in `src/demos.js`: `{ id, strength,
speed }`. -/
structure Cat where
  id : String
  strength : Nat
  speed : Nat
  deriving DecidableEq, Repr

/-- `String.prototype.padStart(n, c)`: pad at the front with `c` up to
length `n` (used by `generate100cats` as `padStart(3, '0')`). -/
def padStart (s : String) (n : Nat) (c : Char) : String :=
  String.mk (List.replicate (n - s.length) c) ++ s

/-- `generate100cats` from `src/demos.js`: 100 records with ids
`'cat' + index.toString().padStart(3, '0')` and random strength and speed;
the randomness is abstracted as the functions `strength` and `speed` from
the generation index. -/
def generate100cats (strength speed : Nat → Nat) : List Cat :=
  (List.range 100).map
    (fun index => ⟨"cat" ++ padStart (toString index) 3 '0', strength index, speed index⟩)

/-- The id list of `generate100cats` (independent of the random strength
and speed). -/
def catIds : List String :=
  (List.range 100).map (fun index => "cat" ++ padStart (toString index) 3 '0')

/-- The store the demo 9/11 upgrade builds: the cats stored under
`key_path: 'id'`, added in generation order. -/
def catsStore (strength speed : Nat → Nat) : ObjectStore String Cat :=
  (generate100cats strength speed).foldl (fun s c => put s c.id c) ⟨[]⟩

theorem mem_insertRec (k : K) (v : V) (l : List (K × V)) (q : K × V)
    (h : q ∈ insertRec k v l) : q = (k, v) ∨ q ∈ l := by
  induction l with
  | nil => simpa [insertRec] using h
  | cons p rest ih =>
    simp only [insertRec] at h
    split at h
    · rcases List.mem_cons.mp h with h | h
      · exact Or.inl h
      · exact Or.inr h
    · split at h
      · rcases List.mem_cons.mp h with h | h
        · exact Or.inl h
        · exact Or.inr (List.mem_cons_of_mem p h)
      · rcases List.mem_cons.mp h with h | h
        · exact Or.inr (h ▸ List.mem_cons_self p rest)
        · rcases ih h with h | h
          · exact Or.inl h
          · exact Or.inr (List.mem_cons_of_mem p h)

theorem pairwise_insertRec (k : K) (v : V) (l : List (K × V))
    (hl : l.Pairwise (fun a b => a.1 < b.1)) :
    (insertRec k v l).Pairwise (fun a b => a.1 < b.1) := by
  induction l with
  | nil => simp [insertRec]
  | cons p rest ih =>
    rcases List.pairwise_cons.mp hl with ⟨hp, hrest⟩
    simp only [insertRec]
    split
    case isTrue hlt =>
      refine List.pairwise_cons.mpr ⟨?_, hl⟩
      intro b hb
      rcases List.mem_cons.mp hb with rfl | hb
      · exact hlt
      · exact lt_trans hlt (hp b hb)
    case isFalse hnlt =>
      split
      case isTrue heq =>
        refine List.pairwise_cons.mpr ⟨?_, hrest⟩
        intro b hb
        exact heq ▸ hp b hb
      case isFalse hne =>
        refine List.pairwise_cons.mpr ⟨?_, ih hrest⟩
        intro b hb
        rcases mem_insertRec k v rest b hb with rfl | hb
        · exact lt_of_le_of_ne (not_lt.mp hnlt) (fun e => hne e.symm)
        · exact hp b hb

theorem insertRec_append (k : K) (v : V) (l : List (K × V))
    (h : ∀ p ∈ l, p.1 < k) : insertRec k v l = l ++ [(k, v)] := by
  induction l with
  | nil => rfl
  | cons p rest ih =>
    have hp : p.1 < k := h p (List.mem_cons_self p rest)
    simp only [insertRec, if_neg (asymm hp : ¬k < p.1), if_neg (ne_of_gt hp : ¬k = p.1)]
    rw [ih (fun q hq => h q (List.mem_cons_of_mem p hq))]
    rfl

theorem find_pairwise_iff (l : List (K × V)) (k : K) (v : V)
    (hl : l.Pairwise (fun a b => a.1 < b.1)) :
    (l.find? (fun p => decide (p.1 = k))).map Prod.snd = some v ↔ (k, v) ∈ l := by
  induction l with
  | nil => simp
  | cons p rest ih =>
    obtain ⟨pk, pv⟩ := p
    rcases List.pairwise_cons.mp hl with ⟨hp, hrest⟩
    by_cases hk : pk = k
    · subst hk
      rw [List.find?_cons_of_pos _ (by simp)]
      constructor
      · intro h
        have hv : pv = v := by simpa using h
        subst hv
        exact List.mem_cons_self _ _
      · intro h
        rcases List.mem_cons.mp h with h | h
        · have hv : v = pv := (Prod.ext_iff.mp h).2
          simp [hv]
        -- a record keyed pk cannot also sit in the tail: tail keys exceed pk
        · exact absurd (hp (pk, v) h) (lt_irrefl pk)
    · rw [List.find?_cons_of_neg _ (by simpa using hk)]
      rw [ih hrest, List.mem_cons]
      constructor
      · exact Or.inr
      · rintro (h | h)
        · exact absurd (congrArg Prod.fst h).symm hk
        · exact h

theorem getRec_iff_mem (s : ObjectStore K V) (k : K) (v : V) (hWF : WF s) :
    getRec s k = some v ↔ (k, v) ∈ s.records :=
  find_pairwise_iff s.records k v hWF

theorem WF_put (s : ObjectStore K V) (k : K) (v : V) (hWF : WF s) : WF (put s k v) :=
  pairwise_insertRec k v s.records hWF

theorem WF_del (s : ObjectStore K V) (k : K) (hWF : WF s) : WF (del s k) :=
  List.Pairwise.sublist (List.filter_sublist s.records) hWF

theorem WF_applyOp (s s' : ObjectStore K V) (op : Op K V) (hWF : WF s)
    (h : applyOp s op = .ok s') : WF s' := by
  cases op with
  | add k v =>
    simp only [applyOp, add] at h
    split at h
    · exact absurd h (by simp)
    · cases h
      exact pairwise_insertRec k v s.records hWF
  | put k v =>
    cases h
    exact WF_put s k v hWF
  | del k =>
    cases h
    exact WF_del s k hWF

theorem WF_applyOps (ops : List (Op K V)) :
    ∀ s s' : ObjectStore K V, WF s → applyOps s ops = .ok s' → WF s' := by
  induction ops with
  | nil =>
    intro s s' hWF h
    cases h
    exact hWF
  | cons op rest ih =>
    intro s s' hWF h
    simp only [applyOps] at h
    split at h
    case h_1 s₁ hop => exact ih s₁ s' (WF_applyOp s s₁ op hWF hop) h
    case h_2 => exact absurd h (by simp)

theorem WF_unique_value (s : ObjectStore K V) (k : K) (v w : V) (hWF : WF s)
    (hv : (k, v) ∈ s.records) (hw : (k, w) ∈ s.records) : v = w := by
  have h1 := (getRec_iff_mem s k v hWF).mpr hv
  have h2 := (getRec_iff_mem s k w hWF).mpr hw
  rw [h1] at h2
  exact Option.some.inj h2

theorem entryLe_trans {K2 : Type} [LinearOrder K2] (a b c : K2 × K)
    (hab : entryLe a b) (hbc : entryLe b c) : entryLe a c := by
  rcases hab with h | ⟨h, h'⟩ <;> rcases hbc with g | ⟨g, g'⟩
  · exact Or.inl (lt_trans h g)
  · exact Or.inl (g ▸ h)
  · exact Or.inl (h ▸ g)
  · exact Or.inr ⟨h.trans g, le_trans h' g'⟩

theorem entryLe_total {K2 : Type} [LinearOrder K2] (a b : K2 × K) :
    entryLe a b ∨ entryLe b a := by
  rcases lt_trichotomy a.1 b.1 with h | h | h
  · exact Or.inl (Or.inl h)
  · rcases le_total a.2 b.2 with h' | h'
    · exact Or.inl (Or.inr ⟨h, h'⟩)
    · exact Or.inr (Or.inr ⟨h.symm, h'⟩)
  · exact Or.inr (Or.inl h)

theorem mem_insertEntry {K2 : Type} [LinearOrder K2] (e q : K2 × K)
    (l : List (K2 × K)) : q ∈ insertEntry e l ↔ q = e ∨ q ∈ l := by
  induction l with
  | nil => simp [insertEntry]
  | cons p rest ih =>
    simp only [insertEntry]
    split
    · simp [List.mem_cons]
    · simp only [List.mem_cons, ih]
      tauto

theorem pairwise_insertEntry {K2 : Type} [LinearOrder K2] (e : K2 × K)
    (l : List (K2 × K)) (hl : l.Pairwise entryLe) :
    (insertEntry e l).Pairwise entryLe := by
  induction l with
  | nil => simp [insertEntry]
  | cons p rest ih =>
    rcases List.pairwise_cons.mp hl with ⟨hp, hrest⟩
    simp only [insertEntry]
    split
    case isTrue hle =>
      refine List.pairwise_cons.mpr ⟨?_, hl⟩
      intro b hb
      rcases List.mem_cons.mp hb with rfl | hb
      · exact hle
      · exact entryLe_trans e p b hle (hp b hb)
    case isFalse hnle =>
      refine List.pairwise_cons.mpr ⟨?_, ih hrest⟩
      intro b hb
      rcases (mem_insertEntry e b rest).mp hb with rfl | hb
      · exact (entryLe_total b p).resolve_left hnle
      · exact hp b hb

theorem mem_entriesOf {K2 : Type} [LinearOrder K2] (l : List (K × V))
    (f : V → K2) (e : K2 × K) :
    e ∈ l.foldr (fun p acc => insertEntry (f p.2, p.1) acc) [] ↔
      ∃ p ∈ l, e = (f p.2, p.1) := by
  induction l with
  | nil => simp
  | cons p rest ih =>
    simp only [List.foldr_cons, mem_insertEntry, ih, List.mem_cons]
    constructor
    · rintro (rfl | ⟨q, hq, rfl⟩)
      · exact ⟨p, Or.inl rfl, rfl⟩
      · exact ⟨q, Or.inr hq, rfl⟩
    · rintro ⟨q, hq | hq, rfl⟩
      · exact Or.inl (by rw [hq])
      · exact Or.inr ⟨q, hq, rfl⟩

theorem mem_indexEntries {K2 : Type} [LinearOrder K2] (s : ObjectStore K V)
    (f : V → K2) (e : K2 × K) :
    e ∈ indexEntries s f ↔ ∃ p ∈ s.records, e = (f p.2, p.1) :=
  mem_entriesOf s.records f e

theorem pairwise_indexEntries {K2 : Type} [LinearOrder K2] (s : ObjectStore K V)
    (f : V → K2) : (indexEntries s f).Pairwise entryLe := by
  unfold indexEntries
  induction s.records with
  | nil => simp
  | cons p rest ih => exact pairwise_insertEntry (f p.2, p.1) _ ih

theorem mem_indexPKs {K2 : Type} [LinearOrder K2] (s : ObjectStore K V)
    (f : V → K2) (d : K2) (k : K) :
    k ∈ indexPKs s f d ↔ ∃ v, (k, v) ∈ s.records ∧ f v = d := by
  unfold indexPKs
  simp only [List.mem_map, List.mem_filter, mem_indexEntries, decide_eq_true_eq]
  constructor
  · rintro ⟨e, ⟨⟨p, hp, rfl⟩, hd⟩, rfl⟩
    exact ⟨p.2, by simpa using hp, hd⟩
  · rintro ⟨v, hv, rfl⟩
    exact ⟨(f v, k), ⟨⟨(k, v), hv, rfl⟩, rfl⟩, rfl⟩

theorem contains_bound_iff (a b k : K) :
    (KeyRange.bound a b).contains k = true ↔ a ≤ k ∧ k ≤ b := by
  simp [KeyRange.bound, KeyRange.contains]

omit [LinearOrder K] in
theorem collectFrom_eq_drop (src : List (K × V)) (pos : Nat) :
    collectFrom src pos = (src.drop pos).map Prod.snd := by
  rw [collectFrom.eq_def]
  split
  case h_1 h =>
    rw [List.drop_eq_nil_of_le (List.get?_eq_none.mp h)]
    rfl
  case h_2 p h =>
    have hlt : pos < src.length := (List.get?_eq_some.mp h).1
    rw [List.drop_eq_getElem_cons hlt, List.map_cons, collectFrom_eq_drop src (pos + 1)]
    have hget : src[pos] = p := by
      have := List.get?_eq_get hlt
      rw [h] at this
      exact (Option.some.inj this).symm
    rw [hget]
termination_by src.length - pos

omit [LinearOrder K] in
theorem cursorIterate_eq_getAll (s : ObjectStore K V) :
    cursorIterate s = getAll s := by
  unfold cursorIterate openCursor
  by_cases h : s.records.isEmpty
  · rw [if_pos h]
    show ([] : List V) = getAll s
    simp [getAll, List.isEmpty_iff.mp h]
  · rw [if_neg h]
    show collectFrom s.records 0 = getAll s
    rw [collectFrom_eq_drop, List.drop_zero]
    rfl

theorem runSteps_append (l₁ l₂ : List (σ → Except DBError σ)) (d : σ) :
    runSteps (l₁ ++ l₂) d =
      match runSteps l₁ d with
      | .ok d' => runSteps l₂ d'
      | .error e => .error e := by
  induction l₁ generalizing d with
  | nil => rfl
  | cons f fs ih =>
    simp only [List.cons_append, runSteps]
    split
    · exact ih _
    · rfl

theorem incrState_ok (steps : List (σ → Except DBError σ)) (init : σ) :
    ∀ (n : Nat) (d : σ), runSteps (steps.take n) init = .ok d →
      storedVersion (incrState steps init n) = n ∧
      storedData (incrState steps init n) init = d := by
  intro n
  induction n with
  | zero =>
    intro d h
    simp only [List.take_zero, runSteps, Except.ok.injEq] at h
    subst h
    exact ⟨rfl, rfl⟩
  | succ n ih =>
    intro d h
    have hsplit : steps.take (n + 1) = steps.take n ++ (steps.take (n + 1)).drop n := by
      conv_lhs => rw [← List.take_append_drop n (steps.take (n + 1))]
      rw [List.take_take, Nat.min_eq_left (Nat.le_succ n)]
    rw [hsplit, runSteps_append] at h
    cases hm : runSteps (steps.take n) init with
    | error e =>
      rw [hm] at h
      exact absurd h (by simp)
    | ok m =>
      rw [hm] at h
      have h' : runSteps ((steps.take (n + 1)).drop n) m = .ok d := h
      obtain ⟨hv, hd⟩ := ih m hm
      show storedVersion (openDB (incrState steps init n) (n + 1) init
          (fallthroughHandler steps)).1 = n + 1 ∧
        storedData (openDB (incrState steps init n) (n + 1) init
          (fallthroughHandler steps)).1 init = d
      unfold openDB
      rw [hv, if_neg (by omega), if_pos (by omega)]
      unfold fallthroughHandler
      rw [hd, h']
      exact ⟨rfl, rfl⟩

/-- Adjacent strictly-ascending check on strings, computed on the
character lists (kernel-reducible, unlike the iterator-based order). -/
def ascStrB : List String → Bool
  | [] => true
  | [_] => true
  | a :: b :: rest => (decide (a.toList < b.toList)) && ascStrB (b :: rest)

theorem chain'_lt_of_ascStrB : ∀ l : List String, ascStrB l = true → l.Chain' (· < ·)
  | [], _ => List.chain'_nil
  | [a], _ => by simp
  | a :: b :: rest, h => by
    simp only [ascStrB, Bool.and_eq_true, decide_eq_true_eq] at h
    exact List.chain'_cons.mpr
      ⟨String.lt_iff_toList_lt.mpr h.1, chain'_lt_of_ascStrB (b :: rest) h.2⟩

theorem foldl_put_records (ps : List (K × V)) :
    ∀ s : ObjectStore K V,
      (∀ q ∈ s.records, ∀ p ∈ ps, q.1 < p.1) →
      (ps.map Prod.fst).Pairwise (· < ·) →
      (ps.foldl (fun t p => put t p.1 p.2) s).records = s.records ++ ps := by
  induction ps with
  | nil =>
    intro s _ _
    simp
  | cons p rest ih =>
    intro s hcross hsort
    simp only [List.foldl_cons]
    have hrec : (put s p.1 p.2).records = s.records ++ [p] := by
      show insertRec p.1 p.2 s.records = s.records ++ [p]
      rw [insertRec_append p.1 p.2 s.records
        (fun q hq => hcross q hq p (List.mem_cons_self p rest))]
    rw [List.map_cons] at hsort
    rcases List.pairwise_cons.mp hsort with ⟨hhead, htail⟩
    have hcross' : ∀ q ∈ (put s p.1 p.2).records, ∀ r ∈ rest, q.1 < r.1 := by
      intro q hq r hr
      rw [hrec] at hq
      rcases List.mem_append.mp hq with hq | hq
      · exact hcross q hq r (List.mem_cons_of_mem p hr)
      · have hqp : q = p := by simpa using hq
        subst hqp
        exact hhead r.1 (List.mem_map_of_mem Prod.fst hr)
    rw [ih (put s p.1 p.2) hcross' htail, hrec, List.append_assoc]
    rfl

theorem catIds_chain : List.Chain' (· < ·) catIds :=
  chain'_lt_of_ascStrB catIds (by decide)

theorem catIds_pairwise : catIds.Pairwise (· < ·) :=
  List.chain'_iff_pairwise.mp catIds_chain

theorem generate100cats_map_id (st sp : Nat → Nat) :
    (generate100cats st sp).map Cat.id = catIds := by
  simp [generate100cats, catIds]

theorem catsStore_records (st sp : Nat → Nat) :
    (catsStore st sp).records = (generate100cats st sp).map (fun c => (c.id, c)) := by
  unfold catsStore
  rw [← List.foldl_map (fun c : Cat => (c.id, c)) (fun t p => put t p.1 p.2)]
  rw [foldl_put_records _ ⟨[]⟩ (by simp) ?sorted]
  · simp
  case sorted =>
    have hmap : ((generate100cats st sp).map (fun c : Cat => (c.id, c))).map Prod.fst
        = catIds := by
      rw [List.map_map]
      exact generate100cats_map_id st sp
    rw [hmap]
    exact catIds_pairwise

theorem contains_bound_str (a b x : String) :
    (KeyRange.bound a b).contains x =
      (decide (a.toList ≤ x.toList) && decide (x.toList ≤ b.toList)) := by
  show (decide (a ≤ x) && decide (x ≤ b)) = _
  congr 1 <;> exact decide_eq_decide.mpr String.le_iff_toList_le

theorem catIds_range_filter :
    catIds.filter (fun s => (KeyRange.bound "cat042" "cat045").contains s)
      = ["cat042", "cat043", "cat044", "cat045"] := by
  rw [List.filter_congr (fun x _ => contains_bound_str "cat042" "cat045" x)]
  decide

/-- C1: if any single queued operation of a transaction fails, the whole
transaction transitions to Aborted and every effect on the store in its
scope and on every dependent index is rolled back: the observable state
equals the state at transaction start, earlier operations' effects
undone. -/
theorem txn_abort_rollback {K2 : Type} [LinearOrder K2]
    (s : ObjectStore K V) (ops : List (Op K V)) (e : DBError)
    (hfail : applyOps s ops = .error e) :
    runTxn s ops = (s, .Aborted) ∧
    ∀ f : V → K2, indexEntries (runTxn s ops).1 f = indexEntries s f := by
  have h : runTxn s ops = (s, .Aborted) := by
    unfold runTxn
    rw [hfail]
  exact ⟨h, fun f => by rw [h]⟩

/-- Witness for C1: on the store mapping 1 to 10, a transaction queues
put 2 20 (which succeeds on its own) and then add 1 99 (a duplicate key, so
it fails): the transaction aborts and the store — and any index over it —
is left exactly as at transaction start, the first operation undone. -/
theorem txn_abort_rollback_witness :
    applyOp (⟨[(1, 10)]⟩ : ObjectStore Nat Nat) (Op.put 2 20)
        = .ok ⟨[(1, 10), (2, 20)]⟩ ∧
    runTxn (⟨[(1, 10)]⟩ : ObjectStore Nat Nat) [Op.put 2 20, Op.add 1 99]
        = (⟨[(1, 10)]⟩, .Aborted) ∧
    ∀ f : Nat → Nat,
      indexEntries (runTxn (⟨[(1, 10)]⟩ : ObjectStore Nat Nat)
          [Op.put 2 20, Op.add 1 99]).1 f
        = indexEntries (⟨[(1, 10)]⟩ : ObjectStore Nat Nat) f := by
  have h := @txn_abort_rollback Nat Nat _ Nat _ (⟨[(1, 10)]⟩ : ObjectStore Nat Nat)
    [Op.put 2 20, Op.add 1 99] DBError.ConstraintError (by rfl)
  exact ⟨by rfl, h.1, h.2⟩

/-- C2: adding under a key already present in the store fails with
ConstraintError and leaves the store's records unchanged (the single-op
transaction aborts with no effect), so a subsequent get of that key
returns the value present before the failed add. -/
theorem add_duplicate_key_constraint (s : ObjectStore K V) (k : K) (v w : V)
    (h : getRec s k = some v) :
    add s k w = .error .ConstraintError ∧
    runTxn s [Op.add k w] = (s, .Aborted) ∧
    getRec (runTxn s [Op.add k w]).1 k = some v := by
  have hadd : add s k w = .error .ConstraintError := by
    unfold add
    rw [if_pos (by rw [h]; rfl)]
  have hrun : runTxn s [Op.add k w] = (s, .Aborted) := by
    simp [runTxn, applyOps, applyOp, hadd]
  exact ⟨hadd, hrun, by rw [hrun]; exact h⟩

/-- Witness for C2: the spec's example — a store holding "a" bound to 1;
add("a", 2) fails with ConstraintError and get("a") still returns 1. -/
theorem add_duplicate_key_constraint_witness :
    add (⟨[("a", 1)]⟩ : ObjectStore String Nat) "a" 2 = .error .ConstraintError ∧
    runTxn (⟨[("a", 1)]⟩ : ObjectStore String Nat) [Op.add "a" 2]
      = (⟨[("a", 1)]⟩, .Aborted) ∧
    getRec (runTxn (⟨[("a", 1)]⟩ : ObjectStore String Nat) [Op.add "a" 2]).1 "a"
      = some 1 :=
  add_duplicate_key_constraint _ "a" 1 2 (by
    unfold getRec
    rw [List.find?_cons_of_pos _ (by simp)]
    rfl)

/-- C3: the index is a pure, automatically-maintained function of the
parent store's records (so every committed store mutation is reflected in
it and it accepts no direct writes); a record's primary key is listed
under its derived key, every primary key listed under a derived key comes
from a record currently in the store with that derived key, and deleting
a record removes its key from every index entry with the store delete. -/
theorem index_consistency {K2 : Type} [LinearOrder K2]
    (s : ObjectStore K V) (f : V → K2) :
    (∀ k v, (k, v) ∈ s.records → k ∈ indexPKs s f (f v)) ∧
    (∀ k d, k ∈ indexPKs s f d → ∃ v, (k, v) ∈ s.records ∧ f v = d) ∧
    (∀ k d, k ∉ indexPKs (del s k) f d) := by
  refine ⟨?_, ?_, ?_⟩
  · intro k v hv
    exact (mem_indexPKs s f (f v) k).mpr ⟨v, hv, rfl⟩
  · intro k d h
    exact (mem_indexPKs s f d k).mp h
  · intro k d h
    obtain ⟨v, hv, -⟩ := (mem_indexPKs (del s k) f d k).mp h
    have := List.mem_filter.mp hv
    simp at this

/-- C4: after any committed sequence of add/put/delete operations the
store stays well-formed, get_all lists the live records in strictly
ascending primary-key order, count equals get_all's length, and a record
is retrievable by get exactly when it is live. -/
theorem getAll_count_after_ops (s s' : ObjectStore K V) (ops : List (Op K V))
    (hWF : WF s) (h : applyOps s ops = .ok s') :
    WF s' ∧ (getAllKeys s').Pairwise (· < ·) ∧
    count s' = (getAll s').length ∧
    (∀ k v, getRec s' k = some v ↔ (k, v) ∈ s'.records) := by
  have hWF' := WF_applyOps ops s s' hWF h
  refine ⟨hWF', List.pairwise_map.mpr hWF', by simp [count, getAll],
    fun k v => getRec_iff_mem s' k v hWF'⟩

/-- Witness for C4: the empty store after the committed sequence add 1 10,
add 2 20, delete 1 — the result holds exactly the record (2, 20), sorted,
with count 1. -/
theorem getAll_count_after_ops_witness :
    WF (⟨[(2, 20)]⟩ : ObjectStore Nat Nat) ∧
    (getAllKeys (⟨[(2, 20)]⟩ : ObjectStore Nat Nat)).Pairwise (· < ·) ∧
    count (⟨[(2, 20)]⟩ : ObjectStore Nat Nat)
      = (getAll (⟨[(2, 20)]⟩ : ObjectStore Nat Nat)).length ∧
    (∀ k v, getRec (⟨[(2, 20)]⟩ : ObjectStore Nat Nat) k = some v ↔
      (k, v) ∈ (⟨[(2, 20)]⟩ : ObjectStore Nat Nat).records) :=
  getAll_count_after_ops ⟨[]⟩ ⟨[(2, 20)]⟩ [Op.add 1 10, Op.add 2 20, Op.del 1]
    (by simp [WF]) (by rfl)

/-- C5: opening with a requested version strictly below the stored version
fails with VersionError, never invokes the upgrade handler (the outcome is
the same for every handler), and leaves the registry slot — stored version
and schema/data — unchanged; moreover the stored version is monotonically
non-decreasing under every open. -/
theorem open_version_error_monotone (cur : Option (DBRecord σ)) (v : Nat)
    (init : σ) (handler : Nat → Nat → σ → Except DBError σ)
    (hv : v < storedVersion cur) :
    openDB cur v init handler = (cur, .error .VersionError) ∧
    (∀ h2 : Nat → Nat → σ → Except DBError σ,
      openDB cur v init handler = openDB cur v init h2) ∧
    (∀ (w : Nat) (h3 : Nat → Nat → σ → Except DBError σ),
      storedVersion cur ≤ storedVersion (openDB cur w init h3).1) := by
  have hmain : ∀ hh : Nat → Nat → σ → Except DBError σ,
      openDB cur v init hh = (cur, .error .VersionError) := by
    intro hh
    unfold openDB
    rw [if_pos hv]
  refine ⟨hmain handler, fun h2 => by rw [hmain handler, hmain h2], ?_⟩
  intro w h3
  unfold openDB
  split
  · exact le_refl _
  next h1 =>
    split
    next h2 =>
      split
      next d hd =>
        show storedVersion cur ≤ storedVersion (some ⟨w, d⟩)
        have hw : storedVersion (some (⟨w, d⟩ : DBRecord σ)) = w := rfl
        rw [hw]
        exact Nat.le_of_lt h2
      next e he => exact le_refl _
    next h2 => exact le_refl _

/-- Witness for C5: a database stored at version 2 opened with requested
version 1 fails with VersionError for every handler and keeps its slot;
the stored version never decreases. -/
theorem open_version_error_monotone_witness :
    openDB (some ⟨2, 7⟩ : Option (DBRecord Nat)) 1 0 (fun _ _ d => .ok d)
      = (some ⟨2, 7⟩, .error .VersionError) ∧
    (∀ h2 : Nat → Nat → Nat → Except DBError Nat,
      openDB (some ⟨2, 7⟩ : Option (DBRecord Nat)) 1 0 (fun _ _ d => .ok d)
        = openDB (some ⟨2, 7⟩) 1 0 h2) ∧
    (∀ (w : Nat) (h3 : Nat → Nat → Nat → Except DBError Nat),
      storedVersion (some ⟨2, 7⟩ : Option (DBRecord Nat))
        ≤ storedVersion (openDB (some ⟨2, 7⟩) w 0 h3).1) :=
  open_version_error_monotone (some ⟨2, 7⟩) 1 0 (fun _ _ d => .ok d) (by decide)

/-- C6: when the requested version exceeds the stored one and the upgrade
handler fails, the VersionChange transaction's effects are discarded, the
open call fails with the handler's error, and the registry slot (stored
version and data) is unchanged — so a retried open is the identical
upgrade attempt from the same old version. -/
theorem upgrade_failure_version_unchanged (cur : Option (DBRecord σ)) (v : Nat)
    (init : σ) (handler : Nat → Nat → σ → Except DBError σ) (e : DBError)
    (hv : storedVersion cur < v)
    (hfail : handler (storedVersion cur) v (storedData cur init) = .error e) :
    openDB cur v init handler = (cur, .error e) ∧
    openDB (openDB cur v init handler).1 v init handler
      = openDB cur v init handler := by
  have h1 : openDB cur v init handler = (cur, .error e) := by
    unfold openDB
    rw [if_neg (by omega), if_pos hv, hfail]
  refine ⟨h1, ?_⟩
  rw [h1]
  exact h1

/-- Witness for C6: opening an absent database (stored version 0) to
version 1 with a handler that fails with DataError: the open fails, the
slot stays absent, and the retry is the identical attempt. -/
theorem upgrade_failure_version_unchanged_witness :
    openDB (none : Option (DBRecord Nat)) 1 0 (fun _ _ _ => .error .DataError)
      = (none, .error .DataError) ∧
    openDB (openDB (none : Option (DBRecord Nat)) 1 0
        (fun _ _ _ => .error .DataError)).1 1 0 (fun _ _ _ => .error .DataError)
      = openDB (none : Option (DBRecord Nat)) 1 0 (fun _ _ _ => .error .DataError) :=
  upgrade_failure_version_unchanged none 1 0 (fun _ _ _ => .error .DataError)
    DBError.DataError (by decide) (by rfl)

/-- C7: with an upgrade handler written as cumulative fallthrough of
independent incremental step functions (old version k runs steps k and
onward up to the target), opening fresh from version 0 directly to V and
opening incrementally through versions 1, 2, ..., V leave the registry in
the identical state: same stored version V and same stored data. -/
theorem fallthrough_upgrade_equivalence (steps : List (σ → Except DBError σ))
    (V : Nat) (init d : σ) (hV : 1 ≤ V)
    (h : runSteps (steps.take V) init = .ok d) :
    openDB none V init (fallthroughHandler steps) = (some ⟨V, d⟩, .ok ⟨V, d⟩) ∧
    incrState steps init V = some ⟨V, d⟩ := by
  constructor
  · unfold openDB
    rw [if_neg (by simp [storedVersion]), if_pos (by simpa [storedVersion] using hV)]
    have h0 : fallthroughHandler steps (storedVersion (none : Option (DBRecord σ))) V
        (storedData (none : Option (DBRecord σ)) init) = .ok d := by
      unfold fallthroughHandler
      show runSteps ((steps.take V).drop 0) init = .ok d
      rw [List.drop_zero]
      exact h
    rw [h0]
  · obtain ⟨hv, hd⟩ := incrState_ok steps init V d h
    cases hcur : incrState steps init V with
    | none =>
      rw [hcur] at hv
      simp [storedVersion] at hv
      omega
    | some r =>
      rw [hcur] at hv hd
      simp only [storedVersion, storedData, Option.map_some, Option.getD_some] at hv hd
      cases r
      simp_all

/-- Witness for C7: two successful steps 0→1 and 1→2 on a Nat-valued
database state; fresh open to 2 and incremental opens 0→1→2 both end with
stored version 2 and data 3. -/
theorem fallthrough_upgrade_equivalence_witness :
    openDB none 2 0 (fallthroughHandler
        [fun n : Nat => Except.ok (n + 1), fun n : Nat => Except.ok (n * 3)])
      = (some ⟨2, 3⟩, .ok ⟨2, 3⟩) ∧
    incrState [fun n : Nat => Except.ok (n + 1), fun n : Nat => Except.ok (n * 3)] 0 2
      = some ⟨2, 3⟩ :=
  fallthrough_upgrade_equivalence
    [fun n : Nat => Except.ok (n + 1), fun n : Nat => Except.ok (n * 3)]
    2 0 3 (by decide) (by rfl)

/-- C8: for an inclusive bounded range over an index, the range scan's
entry list is ordered ascending by derived key with ties of equal derived
key ordered by primary key, an entry (d, k) is selected exactly when the
store holds a record with primary key k whose derived key d satisfies
a ≤ d ≤ b, and the values returned by get_all_from_index are exactly the
store values whose derived key lies within the bounds. -/
theorem index_range_bound_correct {K2 : Type} [LinearOrder K2]
    (s : ObjectStore K V) (f : V → K2) (a b : K2) (hWF : WF s) :
    (indexEntriesInRange s f (KeyRange.bound a b)).Pairwise entryLe ∧
    (∀ d k, (d, k) ∈ indexEntriesInRange s f (KeyRange.bound a b) ↔
      ((∃ v, (k, v) ∈ s.records ∧ f v = d) ∧ a ≤ d ∧ d ≤ b)) ∧
    (∀ w, w ∈ getAllFromIndex s f (KeyRange.bound a b) ↔
      ∃ k, (k, w) ∈ s.records ∧ a ≤ f w ∧ f w ≤ b) := by
  have hmem : ∀ d k, (d, k) ∈ indexEntriesInRange s f (KeyRange.bound a b) ↔
      ((∃ v, (k, v) ∈ s.records ∧ f v = d) ∧ a ≤ d ∧ d ≤ b) := by
    intro d k
    unfold indexEntriesInRange
    rw [List.mem_filter]
    constructor
    · rintro ⟨hmem, hcont⟩
      obtain ⟨p, hp, he⟩ := (mem_indexEntries s f _).mp hmem
      obtain ⟨hd, hk⟩ := Prod.ext_iff.mp he
      rcases (contains_bound_iff a b d).mp hcont with ⟨ha, hb⟩
      subst hd
      subst hk
      exact ⟨⟨p.2, hp, rfl⟩, ha, hb⟩
    · rintro ⟨⟨v, hv, rfl⟩, ha, hb⟩
      exact ⟨(mem_indexEntries s f _).mpr ⟨(k, v), hv, rfl⟩,
        (contains_bound_iff a b (f v)).mpr ⟨ha, hb⟩⟩
  refine ⟨List.Pairwise.filter _ (pairwise_indexEntries s f), hmem, ?_⟩
  intro w
  unfold getAllFromIndex
  rw [List.mem_filterMap]
  constructor
  · rintro ⟨e, he, hw⟩
    have hrec := (getRec_iff_mem s e.2 w hWF).mp hw
    obtain ⟨⟨v, hv, hfv⟩, ha, hb⟩ := (hmem e.1 e.2).mp (by simpa using he)
    have hvw : v = w := WF_unique_value s e.2 v w hWF hv hrec
    subst hvw
    exact ⟨e.2, hrec, by rw [hfv]; exact ha, by rw [hfv]; exact hb⟩
  · rintro ⟨k, hk, ha, hb⟩
    refine ⟨(f w, k), (hmem (f w) k).mpr ⟨⟨w, hk, rfl⟩, ha, hb⟩, ?_⟩
    exact (getRec_iff_mem s k w hWF).mpr hk

/-- Witness for C8: the store {1 ↦ 5, 2 ↦ 3, 3 ↦ 9} with the identity
derived key and the inclusive range bound(3, 7): exactly the records with
values 3 and 5 are selected. -/
theorem index_range_bound_correct_witness :
    (indexEntriesInRange (⟨[(1, 5), (2, 3), (3, 9)]⟩ : ObjectStore Nat Nat)
      (fun v => v) (KeyRange.bound 3 7)).Pairwise entryLe ∧
    (∀ d k, (d, k) ∈ indexEntriesInRange
        (⟨[(1, 5), (2, 3), (3, 9)]⟩ : ObjectStore Nat Nat)
        (fun v => v) (KeyRange.bound 3 7) ↔
      ((∃ v, (k, v) ∈ (⟨[(1, 5), (2, 3), (3, 9)]⟩ : ObjectStore Nat Nat).records
          ∧ v = d) ∧ 3 ≤ d ∧ d ≤ 7)) ∧
    (∀ w, w ∈ getAllFromIndex (⟨[(1, 5), (2, 3), (3, 9)]⟩ : ObjectStore Nat Nat)
        (fun v => v) (KeyRange.bound 3 7) ↔
      ∃ k, (k, w) ∈ (⟨[(1, 5), (2, 3), (3, 9)]⟩ : ObjectStore Nat Nat).records
        ∧ 3 ≤ w ∧ w ≤ 7) :=
  index_range_bound_correct ⟨[(1, 5), (2, 3), (3, 9)]⟩ (fun v => v) 3 7
    (by simp [WF])

omit [LinearOrder K] in
/-- C9: iterating a cursor opened on a store (no range, forward direction)
from open to exhaustion visits exactly count-many positions in store key
order, and the sequence of visited values equals get_all
element-for-element. -/
theorem cursor_iteration_complete (s : ObjectStore K V) :
    cursorIterate s = getAll s ∧ (cursorIterate s).length = count s := by
  have h := cursorIterate_eq_getAll s
  refine ⟨h, ?_⟩
  rw [h]
  simp [getAll, count]

/-- C10: generate100cats returns exactly 100 records whose ids are the
pairwise-distinct zero-padded strings cat000 through cat099; by the zero
padding, lexicographic id order coincides with numeric generation order,
so the store keyed by id (key_path id) lists the cats in generation order,
and the range bound("cat042", "cat045") selects exactly the four ids
cat042, cat043, cat044, cat045. -/
theorem generate100cats_ids_ordered (st sp : Nat → Nat) :
    (generate100cats st sp).map Cat.id = catIds ∧
    (generate100cats st sp).length = 100 ∧
    catIds[0]? = some "cat000" ∧
    catIds[99]? = some "cat099" ∧
    catIds.Nodup ∧
    catIds.Chain' (· < ·) ∧
    getAllKeys (catsStore st sp) = catIds ∧
    catIds.filter (fun s => (KeyRange.bound "cat042" "cat045").contains s)
      = ["cat042", "cat043", "cat044", "cat045"] := by
  refine ⟨generate100cats_map_id st sp, by simp [generate100cats], by decide,
    by decide, catIds_pairwise.imp ne_of_lt, catIds_chain, ?_, catIds_range_filter⟩
  rw [getAllKeys, catsStore_records, List.map_map]
  exact generate100cats_map_id st sp

end IDB

